import Mathlib

/-!
Shallow embedding of `audiocloud/flac-decoder` (src/src/lib.rs), a streaming
FLAC-to-float decoder built on the external `claxon` crate.

Modelling conventions:
* Bytes (`u8`) are `UInt8`; all arithmetic on them is carried out on `.toNat`.
* `f32` arithmetic is idealized as exact rational arithmetic (`ℚ`).  Every
  float computation the claims touch is either exactly representable in `f32`
  (powers of two, small integers) or compared only through the operations the
  source performs, so the idealization is faithful at the inputs used.
* `Vec<f32>` values are lists of rationals; `Vec::with_capacity(n)` yields a
  vector of length 0, hence the empty list.  Indexed assignment
  `v[i] = x` is a partial operation (`setAt`) that fails - as the Rust
  bounds check panics - when `i ≥ v.len()`.
* The external `claxon::frame::FrameReader` is abstracted, exactly as the
  spec's "Frame Parser" collaborator, by a function from the byte slice it is
  handed to one of: a decoded frame (raw sign-extended stereo samples, a
  duration, and the number of bytes consumed), a stall (claxon's
  `Ok(None)` end-of-stream and its `IoError(UnexpectedEof)`, both of which
  `push` treats identically by breaking out of the loop), or a malformed-frame
  error.
* The external `claxon::metadata::MetadataBlockReader` is modelled concretely
  from the FLAC container format it implements: a sequence of blocks, each
  with a 1-byte header (bit 7 = last-block flag, bits 0-6 = type), a 24-bit
  big-endian length, and a payload; type 0 is STREAMINFO, whose payload packs
  the sample rate in 20 bits starting at byte 10 and the bit depth minus one
  in the following 5 bits.
* Fallible paths return `Except String`/`Option`; the decode loop uses fuel
  `input.length + 1`, enough for any parser that consumes at least one byte
  per frame (claxon frames are never empty); fuel exhaustion is an error
  branch, which keeps success-theorems unconditional.
-/

namespace FlacDecoder

abbrev Byte := UInt8

/-- The two stream-info fields the decoder keeps (claxon's `StreamInfo`
restricted to the fields `lib.rs` reads: `sample_rate`, `bits_per_sample`). -/
structure StreamInfo where
  sample_rate : Nat
  bits_per_sample : Nat
deriving DecidableEq, Repr

/-- The decoder state of `struct Decoder` in lib.rs:
`input: Option<Vec<u8>>`, `output: VecDeque<(f32, f32)>`,
`left: Vec<f32>`, `right: Vec<f32>`, `stream_info: StreamInfo`. -/
structure Decoder where
  input : Option (List Byte)
  output : List (ℚ × ℚ)
  left : List ℚ
  right : List ℚ
  stream_info : StreamInfo
deriving DecidableEq, Repr

/-- Model of `cursor.read_be_u32()`: big-endian u32 from the first four bytes,
failing when fewer than four bytes remain. -/
def readBE32 : List Byte → Option (Nat × List Byte)
  | b0 :: b1 :: b2 :: b3 :: rest =>
      some (((b0.toNat * 256 + b1.toNat) * 256 + b2.toNat) * 256 + b3.toNat, rest)
  | _ => none

/-- Model of the external claxon STREAMINFO payload decoding (FLAC layout):
bytes 10-12 hold the 20-bit sample rate, byte 12's low bit and byte 13's
high nibble hold `bits_per_sample - 1` (a 5-bit field).  claxon rejects a
STREAMINFO block whose declared length is not 34. -/
def parseStreamInfo (payload : List Byte) : Except String StreamInfo :=
  if payload.length = 34 then
    let b10 := (payload.getD 10 0).toNat
    let b11 := (payload.getD 11 0).toNat
    let b12 := (payload.getD 12 0).toNat
    let b13 := (payload.getD 13 0).toNat
    .ok { sample_rate := b10 * 4096 + b11 * 16 + b12 / 16
          bits_per_sample := b12 % 2 * 16 + b13 / 16 + 1 }
  else
    .error "invalid streaminfo block length"

/-- Model of the external claxon `MetadataBlockReader` iterator as driven by
`Decoder::new`: read blocks until the one whose last-block flag is set,
remembering the most recent STREAMINFO seen (`maybe_stream_info = Some(si)`),
and return it with the unread remainder of the buffer.  Running out of bytes
mid-block is an error (claxon's `UnexpectedEof`), which `new` propagates.
The fuel argument only bounds recursion; each block consumes ≥ 4 bytes, so
fuel `bytes.length + 1` never runs out. -/
def readMetadataBlocks : Nat → Option StreamInfo → List Byte →
    Except String (Option StreamInfo × List Byte)
  | 0, _, _ => .error "metadata reader stuck"
  | _ + 1, _, [] => .error "unexpected end of input in metadata"
  | fuel + 1, acc, h :: rest =>
    let isLast := 128 ≤ h.toNat
    let btype := h.toNat % 128
    match rest with
    | l0 :: l1 :: l2 :: rest2 =>
      let len := (l0.toNat * 256 + l1.toNat) * 256 + l2.toNat
      if len ≤ rest2.length then
        let payload := rest2.take len
        let rest3 := rest2.drop len
        match (if btype = 0 then (parseStreamInfo payload).map some else .ok acc :
            Except String (Option StreamInfo)) with
        | .error e => .error e
        | .ok acc2 =>
          if isLast then .ok (acc2, rest3) else readMetadataBlocks fuel acc2 rest3
      else .error "unexpected end of input in metadata block"
    | _ => .error "unexpected end of input in metadata length"

/-- The value `0x66_4c_61_43`, the `FLAC_HEADER` constant of `Decoder::new`. -/
def flacHeader : Nat := 0x664C6143

/-- Constructor `Decoder::new`: read the big-endian magic, compare against `FLAC_HEADER`,
run the metadata block reader, require a stream-info block, keep any
remaining bytes as the initial pending input (`None` when empty), and create
the export buffers (`Vec::with_capacity(16 * 1024)`, hence length 0). -/
def Decoder.new (buffer : List Byte) : Except String Decoder :=
  match readBE32 buffer with
  | none => .error "failed to read stream header"
  | some (header, rest) =>
    if header = flacHeader then
      match readMetadataBlocks (rest.length + 1) none rest with
      | .error e => .error e
      | .ok (none, _) => .error "Missing stream info"
      | .ok (some si, remaining) =>
        .ok { input := if remaining.length > 0 then some remaining else none
              output := []
              left := []
              right := []
              stream_info := si }
    else .error "Wrong FLAC Header"

/-- Accessor `Decoder::bit_depth`. -/
def Decoder.bit_depth (d : Decoder) : Nat := d.stream_info.bits_per_sample

/-- Accessor `Decoder::sample_rate`. -/
def Decoder.sample_rate (d : Decoder) : Nat := d.stream_info.sample_rate

/-- Result of one `FrameReader::read_next_or_eof` call on a byte slice:
a decoded frame (its raw sign-extended stereo samples as produced by
`block.stereo_samples()`, its `duration()`, and the cursor position after
the read, i.e. bytes consumed); a stall (claxon's `Ok(None)` or an
`UnexpectedEof`, which `push` treats identically); or a malformed frame. -/
inductive ParseResult where
  | frame (samples : List (Int × Int)) (duration : Nat) (consumed : Nat)
  | stall
  | malformed (msg : String)
deriving DecidableEq, Repr

/-- The external frame-parsing collaborator: what claxon's `FrameReader`
does on the byte slice `&input[pos..]` it is constructed over. -/
abbrev FrameParser := List Byte → ParseResult

/-- The sample normalization inside `Decoder::push`:
`((s << shift) as u32).wrapping_add(0x80000000)` then `as f32 / 2147483648.0
- 1.0`.  The i32 shift keeps the low 32 bits of `s * 2^shift`; the `as u32`
reinterpretation is the nonnegative residue mod `2^32`; the wrapping add is
addition mod `2^32`; the float step is idealized as exact division in ℚ. -/
def normalize (shift : Nat) (s : Int) : ℚ :=
  (((s * 2 ^ shift % 2 ^ 32 + 2 ^ 31) % 2 ^ 32 : Int) : ℚ) / 2 ^ 31 - 1

/-- Normalization applied to a stereo pair, as the loop body of `push`
does for `(l, r) in block.stereo_samples()`. -/
def normPair (shift : Nat) (p : Int × Int) : ℚ × ℚ :=
  (normalize shift p.1, normalize shift p.2)

/-- Outcome of the `loop` in `Decoder::push`: either the loop broke out
normally (final `pos`, accumulated `total`, final output queue) or a decode
error occurred (the error string and the output queue as already extended by
the successfully decoded frames of the same call). -/
inductive LoopResult where
  | done (pos total : Nat) (out : List (ℚ × ℚ))
  | fail (msg : String) (out : List (ℚ × ℚ))
deriving DecidableEq, Repr

/-- The `loop` of `Decoder::push`: parse a frame at `input[pos..]`; on
success normalize and enqueue its stereo samples, add its duration to
`total`, advance `pos` by the bytes consumed and continue; on a stall
(`Ok(None)` or `UnexpectedEof`) break; on any other error fail the call.
Fuel exhaustion (impossible for a parser consuming ≥ 1 byte per frame when
started with fuel `input.length + 1`) is an error branch. -/
def decodeLoop (P : FrameParser) (shift : Nat) (input : List Byte) :
    Nat → Nat → Nat → List (ℚ × ℚ) → LoopResult
  | 0, _, _, out => .fail "decoder stuck" out
  | fuel + 1, pos, total, out =>
    match P (input.drop pos) with
    | .frame samples duration consumed =>
        decodeLoop P shift input fuel (pos + consumed) (total + duration)
          (out ++ samples.map (normPair shift))
    | .stall => .done pos total out
    | .malformed msg => .fail msg out

/-- Operation `Decoder::push`.  `self.input.take().unwrap_or_default()` removes the
pending input from the state; the chunk is appended; the decode loop runs;
on success the pending input is recomputed from `(pos == 0, pos == len)`
exactly as the source `match`; on a decode error the call returns early
with the error - `self.input` stays `None` because `take()` already cleared
it and the error path never restores it. -/
def Decoder.push (d : Decoder) (P : FrameParser) (data : List Byte) :
    Except String Nat × Decoder :=
  let input := d.input.getD [] ++ data
  let shift := 32 - d.bit_depth
  match decodeLoop P shift input (input.length + 1) 0 0 d.output with
  | .fail msg out => (.error msg, { d with input := none, output := out })
  | .done pos total out =>
    let newInput : Option (List Byte) :=
      if pos = input.length then none
      else if pos = 0 then some input
      else some (input.drop pos)
    (.ok total, { d with input := newInput, output := out })

/-- Indexed vector assignment `v[i] = x`: fails (Rust bounds-check panic)
when `i` is not below the vector's length. -/
def setAt (l : List ℚ) (i : Nat) (v : ℚ) : Option (List ℚ) :=
  if i < l.length then some (l.set i v) else none

/-- The `for (l, r) in self.output.iter()` loop of `Decoder::pull`:
write the pair at index `read_pos` of `left`/`right`, increment `read_pos`,
and break once `read_pos >= size`.  The writes are bounds-checked; an
out-of-bounds write aborts the call (`none`). -/
def pullLoop : List (ℚ × ℚ) → Nat → Nat → Decoder → Option (Nat × Decoder)
  | [], readPos, _, d => some (readPos, d)
  | (l, r) :: rest, readPos, size, d =>
    match setAt d.left readPos l, setAt d.right readPos r with
    | some newL, some newR =>
      let d2 := { d with left := newL, right := newR }
      let readPos2 := readPos + 1
      if readPos2 ≥ size then some (readPos2, d2)
      else pullLoop rest readPos2 size d2
    | _, _ => none

/-- Operation `Decoder::pull`. -/
def Decoder.pull (d : Decoder) (size : Nat) : Option (Nat × Decoder) :=
  pullLoop d.output 0 size d

/-- The output queue of either outcome of the decode loop. -/
def LoopResult.outQ : LoopResult → List (ℚ × ℚ)
  | .done _ _ o => o
  | .fail _ o => o

/-- A sequence of `push` calls, one chunk per call, accumulating the returned
sample counts; a failing call fails the whole sequence. -/
def pushSeq (d : Decoder) (P : FrameParser) : List (List Byte) → Except String (Nat × Decoder)
  | [] => .ok (0, d)
  | c :: cs =>
    match d.push P c with
    | (.ok n, d') =>
      match pushSeq d' P cs with
      | .ok (m, dfin) => .ok (n + m, dfin)
      | .error e => .error e
    | (.error e, _) => .error e

/-- Decoder states reachable through the public interface: a successful
construction, followed by any interleaving of `push` (whose post-state is
observable whether the call succeeds or fails) and successful `pull` calls. -/
inductive Reachable : Decoder → Prop where
  | constructed (buffer : List Byte) (d : Decoder) :
      Decoder.new buffer = .ok d → Reachable d
  | pushed (P : FrameParser) (data : List Byte) (d : Decoder) :
      Reachable d → Reachable (d.push P data).2
  | pulled (d : Decoder) (n k : Nat) (d' : Decoder) :
      Reachable d → d.pull n = some (k, d') → Reachable d'

/-- Basic sanity of any real frame parser (claxon included): a successfully
parsed frame consumes at least one byte and no more than the slice holds. -/
def FrameParser.Reasonable (P : FrameParser) : Prop :=
  ∀ b samples dur c, P b = .frame samples dur c → 1 ≤ c ∧ c ≤ b.length

/-- One complete well-formed frame of the bitstream, as the spec's Frame
Parser collaborator sees it: its encoded bytes, the raw sign-extended stereo
samples it decodes to, and its duration. -/
structure Frame where
  bytes : List Byte
  samples : List (Int × Int)
  duration : Nat
deriving DecidableEq, Repr

/-- The byte stream consisting of the given frames, in order. -/
def framesBytes (fs : List Frame) : List Byte := (fs.map Frame.bytes).flatten

/-- The total duration (sample count) of a list of frames. -/
def sumdur (fs : List Frame) : Nat := (fs.map Frame.duration).sum

/-- Predicate: `P` behaves on the frame list as a FLAC frame parser behaves on a
buffer of complete well-formed frames: a buffer beginning with a whole
frame parses to exactly that frame (self-delimiting, no lookahead past
it), a proper prefix of a frame stalls (claxon's `UnexpectedEof`), and the
empty buffer stalls (claxon's `Ok(None)`). -/
def RecognizesFrom (P : FrameParser) (fs : List Frame) : Prop :=
  (∀ f ∈ fs, f.bytes ≠ [] ∧
    (∀ t, P (f.bytes ++ t) = .frame f.samples f.duration f.bytes.length) ∧
    (∀ u, u <+: f.bytes → u ≠ f.bytes → P u = .stall)) ∧
  P [] = .stall

/-- What the decode loop consumes from a buffer drawn from a frame list:
frames are taken greedily from the front as long as the buffer contains
them whole. -/
structure Greedy where
  nframes : Nat
  nbytes : Nat
  dur : Nat
  samples : List (Int × Int)
deriving DecidableEq, Repr

/-- Greedy frame consumption: as long as the buffer starts with the next
complete frame, consume it; stop at the first frame the buffer does not
contain whole. -/
def consumeGreedy : List Frame → List Byte → Greedy
  | [], _ => ⟨0, 0, 0, []⟩
  | f :: fs, b =>
    if f.bytes = b.take f.bytes.length then
      let g := consumeGreedy fs (b.drop f.bytes.length)
      ⟨g.nframes + 1, f.bytes.length + g.nbytes, f.duration + g.dur, f.samples ++ g.samples⟩
    else ⟨0, 0, 0, []⟩

/-- The magic number "fLaC" as bytes. -/
def flacMagicBytes : List Byte := [0x66, 0x4C, 0x61, 0x43]

/-- A concrete minimal container: magic, then a single last-flagged
STREAMINFO block (type 0, length 34) declaring block sizes 4096,
sample rate 44100, stereo, bit depth 16, and no trailing bytes. -/
def c9buf : List Byte :=
  [0x66, 0x4C, 0x61, 0x43, 0x80, 0x00, 0x00, 0x22,
   0x10, 0x00, 0x10, 0x00, 0, 0, 0, 0, 0, 0,
   0x0A, 0xC4, 0x42, 0xF0, 0, 0, 0, 0,
   0, 0, 0, 0, 0, 0, 0, 0, 0, 0, 0, 0, 0, 0, 0, 0]

/-- The decoder `Decoder.new c9buf` produces. -/
def dW : Decoder :=
  { input := none, output := [], left := [], right := [],
    stream_info := { sample_rate := 44100, bits_per_sample := 16 } }

/-- A frame parser that decodes one two-sample frame from any buffer of at
least four bytes and reports a malformed frame otherwise: drives `push`
into its error path on the second iteration. -/
def gtbParser : FrameParser := fun b =>
  if 4 ≤ b.length then .frame [(0, 0)] 1 2 else .malformed "corrupt"

/-- A frame parser that always reports end-of-data. -/
def stallParser : FrameParser := fun _ => .stall

/-- A reachable-shaped state with a queued pair and the real (length-0)
export buffers. -/
def sC3 : Decoder :=
  { input := none, output := [(0, 0)], left := [], right := [],
    stream_info := { sample_rate := 44100, bits_per_sample := 16 } }

/-- A state with a queued pair and export buffers of length one. -/
def sC3b : Decoder :=
  { input := none, output := [(0, 0)], left := [5], right := [7],
    stream_info := { sample_rate := 44100, bits_per_sample := 16 } }

/-- A two-byte frame `FF 01` decoding to one stereo sample pair. -/
def f1 : Frame := ⟨[255, 1], [(1, -1)], 1⟩

/-- A two-byte frame `FF 02` decoding to one stereo sample pair. -/
def f2 : Frame := ⟨[255, 2], [(2, -2)], 1⟩

/-- A two-frame stream for concrete instantiations. -/
def demoFrames : List Frame := [f1, f2]

/-- A concrete frame parser recognizing `demoFrames`: `FF 01 ...` and
`FF 02 ...` parse as the two frames, shorter prefixes stall. -/
def demoParser : FrameParser := fun b =>
  match b with
  | [] => .stall
  | [b0] => if b0 = 255 then .stall else .malformed "bad"
  | b0 :: b1 :: _ =>
    if b0 = 255 then
      if b1 = 1 then .frame [(1, -1)] 1 2
      else if b1 = 2 then .frame [(2, -2)] 1 2
      else .malformed "bad"
    else .malformed "bad"

/-! ## Theorems -/

lemma push_eq (d : Decoder) (P : FrameParser) (data : List Byte) :
    d.push P data =
      (match decodeLoop P (32 - d.bit_depth) (d.input.getD [] ++ data)
          ((d.input.getD [] ++ data).length + 1) 0 0 d.output with
        | .fail msg out => (.error msg, { d with input := none, output := out })
        | .done pos total out =>
          (.ok total,
            { d with
              input :=
                if pos = (d.input.getD [] ++ data).length then none
                else if pos = 0 then some (d.input.getD [] ++ data)
                else some ((d.input.getD [] ++ data).drop pos),
              output := out })) := rfl

lemma push_state_fields (d : Decoder) (P : FrameParser) (data : List Byte) :
    (d.push P data).2.left = d.left ∧ (d.push P data).2.right = d.right ∧
    (d.push P data).2.stream_info = d.stream_info := by
  rw [push_eq]
  cases h : decodeLoop P (32 - d.bit_depth) (d.input.getD [] ++ data)
      ((d.input.getD [] ++ data).length + 1) 0 0 d.output with
  | done pos total out => simp
  | fail msg out => simp

lemma decodeLoop_out_prefix (P : FrameParser) (sh : Nat) (input : List Byte) :
    ∀ fuel pos total out, out <+: (decodeLoop P sh input fuel pos total out).outQ := by
  intro fuel
  induction fuel with
  | zero => intro pos total out; simp [decodeLoop, LoopResult.outQ]
  | succ n ih =>
    intro pos total out
    unfold decodeLoop
    cases h : P (input.drop pos) with
    | frame samples dur c =>
      exact (List.prefix_append _ _).trans (ih _ _ _)
    | stall => simp [LoopResult.outQ]
    | malformed msg => simp [LoopResult.outQ]

/-- C1 (corrected), counterexample: a push whose first frame decodes and
whose second frame is malformed fails with the decode error and retains the
first frame's queued samples, but `PendingInput` after the failed call is
`none`: the bytes of the failing frame are NOT retained for a future call,
because the error path returns after `self.input.take()` without restoring
the buffer. -/
theorem C1_push_error_counterexample :
    (dW.push gtbParser [1, 2, 3, 4]).1 = .error "corrupt" ∧
    (dW.push gtbParser [1, 2, 3, 4]).2.output = [(0, 0)] ∧
    (dW.push gtbParser [1, 2, 3, 4]).2.input = none := by
  refine ⟨rfl, ?_, rfl⟩
  simp only [Decoder.push, decodeLoop, gtbParser, dW, Decoder.bit_depth]
  norm_num [normPair, normalize]

/-- C1 (amended): if a push call fails with a decode error, the samples
queued by earlier successful frames of the same call remain in the
OutputQueue (the old queue is a prefix of the new one) and the bytes
consumed before the failing frame remain consumed, but the pending bytes,
those of the failing frame included, are discarded: `PendingInput` is
`none` after every failed push. -/
theorem C1_push_error_state (d : Decoder) (P : FrameParser) (data : List Byte)
    (msg : String) (d' : Decoder) (h : d.push P data = (.error msg, d')) :
    d'.input = none ∧ d.output <+: d'.output := by
  rw [push_eq] at h
  cases hl : decodeLoop P (32 - d.bit_depth) (d.input.getD [] ++ data)
      ((d.input.getD [] ++ data).length + 1) 0 0 d.output with
  | done pos total out => rw [hl] at h; simp at h
  | fail m out =>
    have hpre := decodeLoop_out_prefix P (32 - d.bit_depth) (d.input.getD [] ++ data)
      ((d.input.getD [] ++ data).length + 1) 0 0 d.output
    rw [hl] at hpre
    rw [hl] at h
    injection h with h1 h2
    exact ⟨by rw [← h2], by rw [← h2]; exact hpre⟩

/-- C1 (amended), witness: the amended statement applied at the
counterexample input, whose failed push has `PendingInput = none` while
the first frame's samples remain queued. -/
theorem C1_push_error_state_witness :
    (dW.push gtbParser [1, 2, 3, 4]).2.input = none ∧
    dW.output <+: (dW.push gtbParser [1, 2, 3, 4]).2.output :=
  C1_push_error_state dW gtbParser [1, 2, 3, 4] "corrupt" _ rfl

lemma pullLoop_spec : ∀ (out : List (ℚ × ℚ)) (rp size : Nat) (d : Decoder) (k : Nat)
    (d' : Decoder), pullLoop out rp size d = some (k, d') →
    (k = if out = [] then rp else rp + min (max 1 (size - rp)) out.length) ∧
    d'.input = d.input ∧ d'.output = d.output ∧ d'.stream_info = d.stream_info ∧
    d'.left.length = d.left.length ∧ d'.right.length = d.right.length ∧
    (∀ i, i < rp ∨ k ≤ i → d'.left[i]? = d.left[i]? ∧ d'.right[i]? = d.right[i]?) ∧
    (∀ i, rp ≤ i → i < k → d'.left[i]? = (out[i - rp]?).map Prod.fst ∧
                            d'.right[i]? = (out[i - rp]?).map Prod.snd) := by
  intro out
  induction out with
  | nil =>
    intro rp size d k d' h
    simp only [pullLoop, Option.some.injEq, Prod.mk.injEq] at h
    obtain ⟨hk, hd⟩ := h
    subst hk; subst hd
    refine ⟨by simp, rfl, rfl, rfl, rfl, rfl, fun i _ => ⟨rfl, rfl⟩, fun i h1 h2 => ?_⟩
    omega
  | cons a rest ih =>
    obtain ⟨l, r⟩ := a
    intro rp size d k d' h
    simp only [pullLoop, setAt] at h
    by_cases hL : rp < d.left.length
    · by_cases hR : rp < d.right.length
      · rw [if_pos hL, if_pos hR] at h
        dsimp only at h
        by_cases hstop : rp + 1 ≥ size
        · rw [if_pos hstop] at h
          simp only [Option.some.injEq, Prod.mk.injEq] at h
          obtain ⟨hk, hd⟩ := h
          subst hk; subst hd
          refine ⟨?_, rfl, rfl, rfl, by simp, by simp, fun i hi => ?_, fun i h1 h2 => ?_⟩
          · rw [if_neg (List.cons_ne_nil _ _), List.length_cons]; omega
          · constructor <;> (rw [List.getElem?_set, if_neg (by omega)])
          · have hirp : i = rp := by omega
            subst hirp
            have h0 : i - i = 0 := by omega
            rw [h0]
            constructor <;>
              (rw [List.getElem?_set, if_pos rfl]; simp only [List.getElem?_cons_zero]) <;> simp [hL, hR]
        · rw [if_neg hstop] at h
          have IH := ih (rp + 1) size
            { d with left := d.left.set rp l, right := d.right.set rp r } k d' h
          obtain ⟨hk, hin, hout, hsi, hll, hrl, hun, hcp⟩ := IH
          have hk1 : rp + 1 ≤ k := by
            rw [hk]; split <;> omega
          refine ⟨?_, hin, hout, hsi, by rw [hll]; simp, by rw [hrl]; simp,
            fun i hi => ?_, fun i h1 h2 => ?_⟩
          · rw [if_neg (List.cons_ne_nil _ _), List.length_cons, hk]
            split
            · rename_i hrest; subst hrest; simp only [List.length_nil]; omega
            · omega
          · have hi' : i < rp + 1 ∨ k ≤ i := by omega
            obtain ⟨u1, u2⟩ := hun i hi'
            rw [u1, u2]
            constructor <;> (rw [List.getElem?_set, if_neg (by omega)])
          · by_cases hirp : i = rp
            · subst hirp
              obtain ⟨u1, u2⟩ := hun i (Or.inl (by omega))
              rw [u1, u2]
              have h0 : i - i = 0 := by omega
              rw [h0]
              constructor <;>
                (rw [List.getElem?_set, if_pos rfl]; simp only [List.getElem?_cons_zero]) <;>
                simp [hL, hR]
            · have h1' : rp + 1 ≤ i := by omega
              obtain ⟨c1, c2⟩ := hcp i h1' h2
              have hidx : i - rp = (i - (rp + 1)) + 1 := by omega
              rw [hidx, c1, c2, List.getElem?_cons_succ]
              exact ⟨rfl, rfl⟩
      · rw [if_pos hL, if_neg hR] at h
        simp at h
    · rw [if_neg hL] at h
      simp at h

/-- C10: a completed `pull` removes nothing: the OutputQueue, PendingInput,
and stream metadata are exactly what they were before the call, the export
buffers keep their lengths, and only the prefix of the buffers below the
returned count is mutated. -/
theorem C10_pull_preserves_state (d : Decoder) (size k : Nat) (d' : Decoder)
    (h : d.pull size = some (k, d')) :
    d'.output = d.output ∧ d'.input = d.input ∧ d'.stream_info = d.stream_info ∧
    d'.left.length = d.left.length ∧ d'.right.length = d.right.length ∧
    (∀ i, k ≤ i → d'.left[i]? = d.left[i]? ∧ d'.right[i]? = d.right[i]?) := by
  obtain ⟨-, hin, hout, hsi, hll, hrl, hun, -⟩ := pullLoop_spec d.output 0 size d k d' h
  exact ⟨hout, hin, hsi, hll, hrl, fun i hi => hun i (Or.inr hi)⟩

/-- C10, witness: a pull of one pair from a state with unit-length buffers. -/
theorem C10_pull_preserves_state_witness :
    (⟨none, [(0, 0)], [0], [0], ⟨44100, 16⟩⟩ : Decoder).output = sC3b.output ∧
    (⟨none, [(0, 0)], [0], [0], ⟨44100, 16⟩⟩ : Decoder).input = sC3b.input ∧
    (⟨none, [(0, 0)], [0], [0], ⟨44100, 16⟩⟩ : Decoder).stream_info = sC3b.stream_info ∧
    (⟨none, [(0, 0)], [0], [0], ⟨44100, 16⟩⟩ : Decoder).left.length = sC3b.left.length ∧
    (⟨none, [(0, 0)], [0], [0], ⟨44100, 16⟩⟩ : Decoder).right.length = sC3b.right.length ∧
    (∀ i, 1 ≤ i →
      (⟨none, [(0, 0)], [0], [0], ⟨44100, 16⟩⟩ : Decoder).left[i]? = sC3b.left[i]? ∧
      (⟨none, [(0, 0)], [0], [0], ⟨44100, 16⟩⟩ : Decoder).right[i]? = sC3b.right[i]?) :=
  C10_pull_preserves_state sC3b 1 1 ⟨none, [(0, 0)], [0], [0], ⟨44100, 16⟩⟩ rfl

/-- C3 (corrected), counterexample: on the reachable shape of state - empty
export buffers - a pull with a non-empty OutputQueue returns no count at all
(out-of-bounds write), and on a state with room in the buffers, `pull 0`
returns 1, exceeding the requested size 0, because the loop writes one pair
before it first checks `read_pos >= size`. -/
theorem C3_pull_counterexample :
    sC3.pull 1 = none ∧ (sC3b.pull 0).map Prod.fst = some 1 := ⟨rfl, rfl⟩

/-- C3 (amended): whenever `pull size` completes (i.e. every write it
performs is in bounds), it has copied pairs from the front of the
OutputQueue in queue order into the export buffers, stopping only after at
least one pair is copied when at least `size` pairs have been copied, or
when the queue is exhausted; the returned count is
`if queue empty then 0 else min (max 1 size) (queue length)`, which is at
most `max 1 size` (for `size = 0` with a non-empty queue it is 1, not 0). -/
theorem C3_pull_success_characterization (d : Decoder) (size k : Nat) (d' : Decoder)
    (h : d.pull size = some (k, d')) :
    k = (if d.output = [] then 0 else min (max 1 size) d.output.length) ∧
    k ≤ max 1 size ∧
    d'.left.take k = (d.output.map Prod.fst).take k ∧
    d'.right.take k = (d.output.map Prod.snd).take k := by
  obtain ⟨hk, -, -, -, hll, hrl, -, hcp⟩ := pullLoop_spec d.output 0 size d k d' h
  have hk' : k = if d.output = [] then 0 else min (max 1 size) d.output.length := by
    rw [hk]
    by_cases ho : d.output = [] <;> simp [ho]
  refine ⟨hk', ?_, ?_, ?_⟩
  · rw [hk']; split <;> omega
  · apply List.ext_getElem?
    intro i
    rw [List.getElem?_take, List.getElem?_take]
    by_cases hi : i < k
    · rw [if_pos hi, if_pos hi]
      have := (hcp i (Nat.zero_le i) hi).1
      simpa [List.getElem?_map] using this
    · rw [if_neg hi, if_neg hi]
  · apply List.ext_getElem?
    intro i
    rw [List.getElem?_take, List.getElem?_take]
    by_cases hi : i < k
    · rw [if_pos hi, if_pos hi]
      have := (hcp i (Nat.zero_le i) hi).2
      simpa [List.getElem?_map] using this
    · rw [if_neg hi, if_neg hi]

/-- C3 (amended), witness: pulling 2 from a one-pair queue with room in the
buffers copies that pair and returns 1. -/
theorem C3_pull_success_characterization_witness :
    (1 = if sC3b.output = [] then 0 else min (max 1 2) sC3b.output.length) ∧
    1 ≤ max 1 2 ∧
    (⟨none, [(0, 0)], [0], [0], ⟨44100, 16⟩⟩ : Decoder).left.take 1 =
      (sC3b.output.map Prod.fst).take 1 ∧
    (⟨none, [(0, 0)], [0], [0], ⟨44100, 16⟩⟩ : Decoder).right.take 1 =
      (sC3b.output.map Prod.snd).take 1 :=
  C3_pull_success_characterization sC3b 2 1 ⟨none, [(0, 0)], [0], [0], ⟨44100, 16⟩⟩ rfl

lemma new_ok_shape (buffer : List Byte) (d : Decoder) (h : Decoder.new buffer = .ok d) :
    d.left = [] ∧ d.right = [] ∧ d.output = [] := by
  unfold Decoder.new at h
  split at h
  · simp at h
  · split at h
    · split at h
      · simp at h
      · simp at h
      · rw [Except.ok.injEq] at h
        exact ⟨by rw [← h], by rw [← h], by rw [← h]⟩
    · simp at h

lemma reachable_buffers_nil (d : Decoder) (h : Reachable d) :
    d.left = [] ∧ d.right = [] := by
  induction h with
  | constructed buffer d hnew =>
    obtain ⟨h1, h2, -⟩ := new_ok_shape buffer d hnew
    exact ⟨h1, h2⟩
  | pushed P data d _ ih =>
    obtain ⟨h1, h2, -⟩ := push_state_fields d P data
    rw [h1, h2]; exact ih
  | pulled d n k d' _ hp ih =>
    obtain ⟨-, -, -, -, hll, hrl, -, -⟩ := pullLoop_spec d.output 0 n d k d' hp
    constructor
    · rw [← List.length_eq_zero, hll, ih.1]; rfl
    · rw [← List.length_eq_zero, hrl, ih.2]; rfl

/-- C2: the export buffers are created with length 0 (capacity 16*1024 is a
memory reservation only) and no operation ever lengthens them, so on every
reachable decoder state a `pull` with a non-empty OutputQueue hits the
out-of-bounds write `self.left[0]` and returns no count, while with an empty
OutputQueue it completes, returns 0, and leaves the state unchanged. -/
theorem C2_pull_requires_empty_queue (d : Decoder) (hd : Reachable d) (n : Nat) :
    (d.output ≠ [] → d.pull n = none) ∧ (d.output = [] → d.pull n = some (0, d)) := by
  obtain ⟨hleft, hright⟩ := reachable_buffers_nil d hd
  constructor
  · intro hne
    cases ho : d.output with
    | nil => exact absurd ho hne
    | cons a rest =>
      obtain ⟨l, r⟩ := a
      show pullLoop d.output 0 n d = none
      rw [ho]
      simp [pullLoop, setAt, hleft]
  · intro he
    show pullLoop d.output 0 n d = some (0, d)
    rw [he]
    rfl

/-- C2, witness: the freshly constructed decoder is reachable, and pulling
any size from its empty queue returns 0. -/
theorem C2_pull_requires_empty_queue_witness :
    Decoder.new c9buf = .ok dW ∧ dW.pull 5 = some (0, dW) :=
  ⟨rfl, (C2_pull_requires_empty_queue dW (.constructed c9buf dW rfl) 5).2 rfl⟩

/-- C5: for bit depths 8, 16 and 24, the minimum representable sample
`-2^(d-1)` normalizes to a value at least -1.0 and the maximum
`2^(d-1) - 1` to a value below 1.0, under the `normalize` scheme `push`
applies with shift `32 - d`. -/
theorem C5_normalization_range :
    (-1 ≤ normalize (32 - 8) (-(2 ^ 7)) ∧ normalize (32 - 8) (2 ^ 7 - 1) < 1) ∧
    (-1 ≤ normalize (32 - 16) (-(2 ^ 15)) ∧ normalize (32 - 16) (2 ^ 15 - 1) < 1) ∧
    (-1 ≤ normalize (32 - 24) (-(2 ^ 23)) ∧ normalize (32 - 24) (2 ^ 23 - 1) < 1) := by
  norm_num [normalize]

lemma decodeLoop_done_pos_le (P : FrameParser) (sh : Nat) (input : List Byte)
    (hP : P.Reasonable) :
    ∀ fuel pos total out pos' total' out', pos ≤ input.length →
      decodeLoop P sh input fuel pos total out = .done pos' total' out' →
      pos' ≤ input.length := by
  intro fuel
  induction fuel with
  | zero =>
    intro pos total out pos' total' out' hpos h
    simp [decodeLoop] at h
  | succ n ih =>
    intro pos total out pos' total' out' hpos h
    simp only [decodeLoop] at h
    cases hp : P (input.drop pos) with
    | frame samples dur c =>
      rw [hp] at h
      dsimp only at h
      obtain ⟨hc1, hc2⟩ := hP _ _ _ _ hp
      rw [List.length_drop] at hc2
      exact ih (pos + c) _ _ _ _ _ (by omega) h
    | stall =>
      rw [hp] at h
      dsimp only at h
      injection h with h1 h2 h3
      omega
    | malformed m =>
      rw [hp] at h
      dsimp only at h
      exact absurd h (by simp)

/-- C6: after every successful push, PendingInput is exactly the suffix of
the combined buffer (old pending input ++ new chunk) starting at the
consumed offset: `none` exactly when everything was consumed, the whole
buffer when the offset is 0, the tail slice otherwise - no byte skipped,
duplicated, or re-parsed from an earlier offset. -/
theorem C6_pending_input_suffix (d : Decoder) (P : FrameParser) (data : List Byte)
    (hP : P.Reasonable) (total : Nat) (d' : Decoder)
    (h : d.push P data = (.ok total, d')) :
    ∃ pos, pos ≤ (d.input.getD [] ++ data).length ∧
      d'.input.getD [] = (d.input.getD [] ++ data).drop pos ∧
      (d'.input = none ↔ pos = (d.input.getD [] ++ data).length) := by
  rw [push_eq] at h
  cases hl : decodeLoop P (32 - d.bit_depth) (d.input.getD [] ++ data)
      ((d.input.getD [] ++ data).length + 1) 0 0 d.output with
  | fail msg out => rw [hl] at h; simp at h
  | done pos total2 out =>
    rw [hl] at h
    injection h with h1 h2
    have hpos : pos ≤ (d.input.getD [] ++ data).length :=
      decodeLoop_done_pos_le P _ _ hP _ 0 0 d.output pos total2 out (Nat.zero_le _) hl
    refine ⟨pos, hpos, ?_, ?_⟩
    · rw [← h2]
      by_cases h3 : pos = (d.input.getD [] ++ data).length
      · rw [if_pos h3]
        subst h3
        rw [List.drop_length]
        rfl
      · rw [if_neg h3]
        by_cases h4 : pos = 0
        · subst h4
          rw [if_pos rfl]
          rfl
        · rw [if_neg h4]
          rfl
    · rw [← h2]
      by_cases h3 : pos = (d.input.getD [] ++ data).length
      · rw [if_pos h3]
        simpa using h3
      · rw [if_neg h3]
        by_cases h4 : pos = 0
        · subst h4
          rw [if_pos rfl]
          simpa using h3
        · rw [if_neg h4]
          simpa using h3

/-- C6, witness: a push of one byte on which the parser stalls leaves the
byte pending at offset 0. -/
theorem C6_pending_input_suffix_witness :
    FrameParser.Reasonable stallParser ∧
    (∃ pos, pos ≤ (dW.input.getD [] ++ [9]).length ∧
      (dW.push stallParser [9]).2.input.getD [] = (dW.input.getD [] ++ [9]).drop pos ∧
      ((dW.push stallParser [9]).2.input = none ↔ pos = (dW.input.getD [] ++ [9]).length)) :=
  have hr : FrameParser.Reasonable stallParser := fun b s dur c h => by
    simp [stallParser] at h
  ⟨hr, C6_pending_input_suffix dW stallParser [9] hr 0 _ rfl⟩

lemma parseStreamInfo_ok_bits (payload : List Byte) (si : StreamInfo)
    (h : parseStreamInfo payload = .ok si) :
    1 ≤ si.bits_per_sample ∧ si.bits_per_sample ≤ 32 := by
  unfold parseStreamInfo at h
  split at h
  · rw [Except.ok.injEq] at h
    have hb13 : (payload.getD 13 0).toNat < 256 := UInt8.toNat_lt _
    have hb12 : (payload.getD 12 0).toNat < 256 := UInt8.toNat_lt _
    rw [← h]
    dsimp only
    omega
  · simp at h

lemma readMetadataBlocks_ok_bits :
    ∀ (fuel : Nat) (acc : Option StreamInfo) (bytes : List Byte) (si : StreamInfo)
      (rest : List Byte),
      (∀ s, acc = some s → 1 ≤ s.bits_per_sample ∧ s.bits_per_sample ≤ 32) →
      readMetadataBlocks fuel acc bytes = .ok (some si, rest) →
      1 ≤ si.bits_per_sample ∧ si.bits_per_sample ≤ 32 := by
  intro fuel
  induction fuel with
  | zero =>
    intro acc bytes si rest hacc h
    simp [readMetadataBlocks] at h
  | succ n ih =>
    intro acc bytes si rest hacc h
    cases bytes with
    | nil => simp [readMetadataBlocks] at h
    | cons b bs =>
      rcases bs with _ | ⟨l0, _ | ⟨l1, _ | ⟨l2, rest2⟩⟩⟩
      · simp [readMetadataBlocks] at h
      · simp [readMetadataBlocks] at h
      · simp [readMetadataBlocks] at h
      · simp only [readMetadataBlocks] at h
        split at h
        · cases hstep : (if b.toNat % 128 = 0 then
              (parseStreamInfo (rest2.take ((l0.toNat * 256 + l1.toNat) * 256 + l2.toNat))).map some
            else Except.ok acc : Except String (Option StreamInfo)) with
          | error e => rw [hstep] at h; simp at h
          | ok acc2 =>
            rw [hstep] at h
            dsimp only at h
            have hacc2 : ∀ s, acc2 = some s →
                1 ≤ s.bits_per_sample ∧ s.bits_per_sample ≤ 32 := by
              intro s hs
              by_cases hb : b.toNat % 128 = 0
              · rw [if_pos hb] at hstep
                cases hpsi : parseStreamInfo
                    (rest2.take ((l0.toNat * 256 + l1.toNat) * 256 + l2.toNat)) with
                | error e => rw [hpsi] at hstep; simp [Except.map] at hstep
                | ok si0 =>
                  rw [hpsi] at hstep
                  simp only [Except.map] at hstep
                  rw [Except.ok.injEq] at hstep
                  rw [← hstep] at hs
                  rw [Option.some.injEq] at hs
                  rw [← hs]
                  exact parseStreamInfo_ok_bits _ _ hpsi
              · rw [if_neg hb] at hstep
                rw [Except.ok.injEq] at hstep
                rw [← hstep] at hs
                exact hacc s hs
            split at h
            · rw [Except.ok.injEq, Prod.mk.injEq] at h
              exact hacc2 si h.1
            · exact ih acc2 _ si rest hacc2 h
        · simp at h

/-- C8: every successfully constructed decoder has a declared bit depth in
[1, 32] - the STREAMINFO field storing `bit depth - 1` is 5 bits wide, so no
stream-info block can declare a value outside that range and construction
never observes one - hence the `32 - bit_depth` shift in `push` is defined
(a `u32` subtraction that cannot underflow, and an `i32` shift amount below
32). -/
theorem C8_bit_depth_in_range (buffer : List Byte) (d : Decoder)
    (h : Decoder.new buffer = .ok d) :
    1 ≤ d.bit_depth ∧ d.bit_depth ≤ 32 ∧ 32 - d.bit_depth < 32 := by
  unfold Decoder.new at h
  split at h
  · simp at h
  · split at h
    · split at h
      · simp at h
      · simp at h
      · rename_i heq
        have hb := readMetadataBlocks_ok_bits _ none _ _ _ (by intro s hs; cases hs) heq
        rw [Except.ok.injEq] at h
        rw [← h]
        refine ⟨hb.1, hb.2, ?_⟩
        have := hb.1
        simp only [Decoder.bit_depth]
        omega
    · simp at h

/-- C8, witness: the concretely constructed decoder. -/
theorem C8_bit_depth_in_range_witness :
    1 ≤ dW.bit_depth ∧ dW.bit_depth ≤ 32 ∧ 32 - dW.bit_depth < 32 :=
  C8_bit_depth_in_range c9buf dW rfl

/-- C9: construction fails on any buffer not starting with the 4-byte FLAC
magic; it fails with the "Missing stream info" error when the metadata
blocks end without a stream-info block; on the concrete valid header
declaring 44100/16 it succeeds and the accessors return exactly those
values; and neither push (successful or not) nor a completed pull ever
changes the accessor values. -/
theorem C9_construction_contract :
    (∀ buffer : List Byte, buffer.take 4 ≠ flacMagicBytes →
      ∃ e, Decoder.new buffer = .error e) ∧
    (∀ (buffer rest : List Byte), buffer.take 4 = flacMagicBytes →
      readMetadataBlocks ((buffer.drop 4).length + 1) none (buffer.drop 4) =
        .ok (none, rest) →
      Decoder.new buffer = .error "Missing stream info") ∧
    (Decoder.new c9buf = .ok dW ∧ dW.sample_rate = 44100 ∧ dW.bit_depth = 16) ∧
    (∀ (d : Decoder) (P : FrameParser) (data : List Byte),
      (d.push P data).2.bit_depth = d.bit_depth ∧
      (d.push P data).2.sample_rate = d.sample_rate) ∧
    (∀ (d : Decoder) (n k : Nat) (d' : Decoder), d.pull n = some (k, d') →
      d'.bit_depth = d.bit_depth ∧ d'.sample_rate = d.sample_rate) := by
  refine ⟨?_, ?_, ⟨rfl, rfl, rfl⟩, ?_, ?_⟩
  · intro buffer hmag
    rcases buffer with _ | ⟨b0, _ | ⟨b1, _ | ⟨b2, _ | ⟨b3, rest⟩⟩⟩⟩
    · exact ⟨_, rfl⟩
    · exact ⟨_, rfl⟩
    · exact ⟨_, rfl⟩
    · exact ⟨_, rfl⟩
    · by_cases hN : ((b0.toNat * 256 + b1.toNat) * 256 + b2.toNat) * 256 + b3.toNat =
        flacHeader
      · exfalso
        apply hmag
        have e0 := UInt8.toNat_lt b0
        have e1 := UInt8.toNat_lt b1
        have e2 := UInt8.toNat_lt b2
        have e3 := UInt8.toNat_lt b3
        unfold flacHeader at hN
        norm_num at e0 e1 e2 e3 hN
        have : b0.toNat = 0x66 ∧ b1.toNat = 0x4C ∧ b2.toNat = 0x61 ∧ b3.toNat = 0x43 := by
          omega
        obtain ⟨h0, h1, h2, h3⟩ := this
        have g0 : b0 = 0x66 := UInt8.toNat.inj (by rw [h0]; rfl)
        have g1 : b1 = 0x4C := UInt8.toNat.inj (by rw [h1]; rfl)
        have g2 : b2 = 0x61 := UInt8.toNat.inj (by rw [h2]; rfl)
        have g3 : b3 = 0x43 := UInt8.toNat.inj (by rw [h3]; rfl)
        subst g0; subst g1; subst g2; subst g3
        rfl
      · refine ⟨"Wrong FLAC Header", ?_⟩
        unfold Decoder.new readBE32
        dsimp only
        rw [if_neg hN]
  · intro buffer rest hmag hmb
    rcases buffer with _ | ⟨b0, _ | ⟨b1, _ | ⟨b2, _ | ⟨b3, rest4⟩⟩⟩⟩ <;>
      simp only [List.take, flacMagicBytes] at hmag
    · exact absurd hmag (by simp)
    · exact absurd hmag (by simp)
    · exact absurd hmag (by simp)
    · exact absurd hmag (by simp)
    · rw [List.cons.injEq, List.cons.injEq, List.cons.injEq, List.cons.injEq] at hmag
      obtain ⟨g0, g1, g2, g3, -⟩ := hmag
      subst g0; subst g1; subst g2; subst g3
      unfold Decoder.new readBE32
      dsimp only
      rw [if_pos (by norm_num [flacHeader])]
      have hdrop : (((0x66 : Byte) :: 0x4C :: 0x61 :: 0x43 :: rest4).drop 4) = rest4 := rfl
      rw [hdrop] at hmb
      rw [hmb]
  · intro d P data
    have := (push_state_fields d P data).2.2
    constructor
    · simp only [Decoder.bit_depth, this]
    · simp only [Decoder.sample_rate, this]
  · intro d n k d' hp
    obtain ⟨-, -, -, hsi, -⟩ := pullLoop_spec d.output 0 n d k d' hp
    constructor
    · simp only [Decoder.bit_depth, hsi]
    · simp only [Decoder.sample_rate, hsi]

/-- C9, witness: a wrong-magic buffer is rejected, and a push leaves the
accessors unchanged. -/
theorem C9_construction_contract_witness :
    (∃ e, Decoder.new [0, 0, 0, 0] = .error e) ∧
    ((sC3b.push stallParser []).2.bit_depth = sC3b.bit_depth ∧
     (sC3b.push stallParser []).2.sample_rate = sC3b.sample_rate) :=
  ⟨C9_construction_contract.1 [0, 0, 0, 0] (by decide),
   C9_construction_contract.2.2.2.1 sC3b stallParser []⟩

lemma recognizesFrom_mono (P : FrameParser) (fs gs : List Frame)
    (hsub : ∀ f ∈ gs, f ∈ fs) (h : RecognizesFrom P fs) : RecognizesFrom P gs :=
  ⟨fun f hf => h.1 f (hsub f hf), h.2⟩

lemma framesBytes_cons (f : Frame) (fs : List Frame) :
    framesBytes (f :: fs) = f.bytes ++ framesBytes fs := by
  simp [framesBytes]

lemma decodeLoop_greedy (P : FrameParser) (sh : Nat) :
    ∀ (rest : List Frame) (input : List Byte) (pos total fuel : Nat) (out : List (ℚ × ℚ)),
      RecognizesFrom P rest →
      (input.drop pos) <+: framesBytes rest →
      (input.drop pos).length + 1 ≤ fuel →
      decodeLoop P sh input fuel pos total out =
        .done (pos + (consumeGreedy rest (input.drop pos)).nbytes)
              (total + (consumeGreedy rest (input.drop pos)).dur)
              (out ++ ((consumeGreedy rest (input.drop pos)).samples).map (normPair sh)) := by
  intro rest
  induction rest with
  | nil =>
    intro input pos total fuel out hrec hpre hfuel
    have hb : input.drop pos = [] := List.prefix_nil.mp hpre
    obtain ⟨fl, hf⟩ : ∃ fl, fuel = fl + 1 := ⟨fuel - 1, by omega⟩
    subst hf
    simp only [decodeLoop, hb, hrec.2]
    simp [consumeGreedy]
  | cons f rest' ih =>
    intro input pos total fuel out hrec hpre hfuel
    obtain ⟨fl, hf⟩ : ∃ fl, fuel = fl + 1 := ⟨fuel - 1, by omega⟩
    subst hf
    obtain ⟨hne, hparse, hstall⟩ := hrec.1 f (List.mem_cons_self f rest')
    by_cases hpref : f.bytes = (input.drop pos).take f.bytes.length
    · have hbp : f.bytes <+: (input.drop pos) := List.prefix_iff_eq_take.mpr hpref
      obtain ⟨b1, hb1⟩ := hbp
      have hdrop2 : input.drop (pos + f.bytes.length) = b1 := by
        rw [← List.drop_drop, ← hb1, List.drop_left]
      have hpre2 : b1 <+: framesBytes rest' := by
        rw [framesBytes_cons] at hpre
        rw [← hb1] at hpre
        exact (List.prefix_append_right_inj f.bytes).mp hpre
      have hflen : 1 ≤ f.bytes.length := List.length_pos.mpr hne
      have hlen1 : (input.drop pos).length = f.bytes.length + b1.length := by
        rw [← hb1, List.length_append]
      have hfuel2 : b1.length + 1 ≤ fl := by omega
      have hrec' : RecognizesFrom P rest' :=
        recognizesFrom_mono P (f :: rest') rest' (fun g hg => List.mem_cons_of_mem f hg) hrec
      have hP : P (input.drop pos) = .frame f.samples f.duration f.bytes.length := by
        rw [← hb1]; exact hparse b1
      simp only [decodeLoop]
      rw [hP]
      dsimp only
      have hrw := ih input (pos + f.bytes.length) (total + f.duration) fl
        (out ++ f.samples.map (normPair sh)) hrec' (by rw [hdrop2]; exact hpre2)
        (by rw [hdrop2]; exact hfuel2)
      rw [hdrop2] at hrw
      rw [hrw]
      have hdb : (input.drop pos).drop f.bytes.length = b1 := by
        rw [← hb1, List.drop_left]
      simp only [consumeGreedy, if_pos hpref, hdb]
      congr 1
      · omega
      · omega
      · rw [List.map_append, List.append_assoc]
    · have hfree : f.bytes <+: framesBytes (f :: rest') := by
        rw [framesBytes_cons]
        exact List.prefix_append f.bytes (framesBytes rest')
      have hcase : (input.drop pos) <+: f.bytes ∧ (input.drop pos) ≠ f.bytes := by
        rcases List.prefix_or_prefix_of_prefix hpre hfree with h | h
        · refine ⟨h, fun heq => hpref ?_⟩
          rw [heq, List.take_length]
        · exact absurd (List.prefix_iff_eq_take.mp h) hpref
      simp only [decodeLoop]
      rw [hstall _ hcase.1 hcase.2]
      simp only [consumeGreedy, if_neg hpref]
      simp

lemma consumeGreedy_chain (rest : List Frame) : ∀ (b X : List Byte),
    b ++ X = framesBytes rest →
    (b.drop (consumeGreedy rest b).nbytes) ++ X =
      framesBytes (rest.drop (consumeGreedy rest b).nframes) := by
  induction rest with
  | nil =>
    intro b X h
    simpa [consumeGreedy] using h
  | cons f fs ih =>
    intro b X h
    by_cases hp : f.bytes = b.take f.bytes.length
    · have hbp : f.bytes <+: b := List.prefix_iff_eq_take.mpr hp
      obtain ⟨b1, hb1⟩ := hbp
      have hdb : b.drop f.bytes.length = b1 := by rw [← hb1, List.drop_left]
      have hX : b1 ++ X = framesBytes fs := by
        rw [framesBytes_cons] at h
        rw [← hb1, List.append_assoc] at h
        exact List.append_cancel_left h
      simp only [consumeGreedy, if_pos hp, List.drop_succ_cons, hdb]
      have hdrop : b.drop (f.bytes.length + (consumeGreedy fs b1).nbytes) =
          b1.drop (consumeGreedy fs b1).nbytes := by
        rw [← List.drop_drop, hdb]
      rw [hdrop]
      exact ih b1 X hX
    · simp only [consumeGreedy, if_neg hp, List.drop_zero]
      exact h

lemma consumeGreedy_dur_chain (rest : List Frame) : ∀ b,
    (consumeGreedy rest b).dur + sumdur (rest.drop (consumeGreedy rest b).nframes) =
      sumdur rest := by
  induction rest with
  | nil => intro b; simp [consumeGreedy, sumdur]
  | cons f fs ih =>
    intro b
    by_cases hp : f.bytes = b.take f.bytes.length
    · simp only [consumeGreedy, if_pos hp, List.drop_succ_cons]
      have := ih (b.drop f.bytes.length)
      simp only [sumdur, List.map_cons, List.sum_cons]
      simp only [sumdur] at this
      omega
    · simp [consumeGreedy, if_neg hp]

lemma consumeGreedy_max (rest : List Frame) : ∀ b,
    consumeGreedy (rest.drop (consumeGreedy rest b).nframes)
      (b.drop (consumeGreedy rest b).nbytes) = ⟨0, 0, 0, []⟩ := by
  induction rest with
  | nil => intro b; simp [consumeGreedy]
  | cons f fs ih =>
    intro b
    by_cases hp : f.bytes = b.take f.bytes.length
    · simp only [consumeGreedy, if_pos hp, List.drop_succ_cons]
      have hdrop : b.drop (f.bytes.length + (consumeGreedy fs (b.drop f.bytes.length)).nbytes) =
          (b.drop f.bytes.length).drop (consumeGreedy fs (b.drop f.bytes.length)).nbytes :=
        (List.drop_drop _ _ _).symm
      rw [hdrop]
      exact ih (b.drop f.bytes.length)
    · simp only [consumeGreedy, if_neg hp, List.drop_zero]

lemma consumeGreedy_nil_byte (rest : List Frame) (hne : ∀ f ∈ rest, f.bytes ≠ []) :
    consumeGreedy rest [] = ⟨0, 0, 0, []⟩ := by
  cases rest with
  | nil => rfl
  | cons f fs =>
    have hf := hne f (List.mem_cons_self f fs)
    simp only [consumeGreedy, List.take_nil]
    rw [if_neg hf]

lemma consumeGreedy_full_dur (fs : List Frame) :
    (consumeGreedy fs (framesBytes fs)).dur = sumdur fs := by
  induction fs with
  | nil => simp [consumeGreedy, sumdur]
  | cons f fs ih =>
    rw [framesBytes_cons]
    simp only [consumeGreedy]
    rw [if_pos (List.take_left f.bytes (framesBytes fs)).symm]
    rw [List.drop_left]
    simp only [sumdur, List.map_cons, List.sum_cons]
    simp only [sumdur] at ih
    omega

lemma push_greedy (P : FrameParser) (fs : List Frame) (d : Decoder) (data : List Byte)
    (hrec : RecognizesFrom P fs)
    (hb : (d.input.getD [] ++ data) <+: framesBytes fs) :
    (d.push P data).1 = .ok (consumeGreedy fs (d.input.getD [] ++ data)).dur ∧
    (d.push P data).2.output = d.output ++
      ((consumeGreedy fs (d.input.getD [] ++ data)).samples).map
        (normPair (32 - d.bit_depth)) ∧
    (d.push P data).2.input.getD [] =
      (d.input.getD [] ++ data).drop (consumeGreedy fs (d.input.getD [] ++ data)).nbytes := by
  have hl := decodeLoop_greedy P (32 - d.bit_depth) fs (d.input.getD [] ++ data) 0 0
    ((d.input.getD [] ++ data).length + 1) d.output hrec
    (by rw [List.drop_zero]; exact hb) (by rw [List.drop_zero])
  rw [List.drop_zero] at hl
  rw [push_eq, hl]
  dsimp only
  simp only [Nat.zero_add]
  refine ⟨by trivial, by trivial, ?_⟩
  set b := d.input.getD [] ++ data with hbdef
  set g := consumeGreedy fs b with hgdef
  by_cases h1 : g.nbytes = b.length
  · rw [if_pos h1]
    rw [h1, List.drop_length]
    rfl
  · rw [if_neg h1]
    by_cases h2 : g.nbytes = 0
    · rw [if_pos h2]
      rw [h2, List.drop_zero]
      rfl
    · rw [if_neg h2]
      rfl

lemma pushSeq_greedy (P : FrameParser) :
    ∀ (chunks : List (List Byte)) (rest : List Frame) (d : Decoder),
      RecognizesFrom P rest →
      d.input.getD [] ++ chunks.flatten = framesBytes rest →
      consumeGreedy rest (d.input.getD []) = ⟨0, 0, 0, []⟩ →
      ∃ dfin, pushSeq d P chunks = .ok (sumdur rest, dfin) := by
  intro chunks
  induction chunks with
  | nil =>
    intro rest d hrec heq hstall
    simp only [List.flatten_nil, List.append_nil] at heq
    cases rest with
    | nil => exact ⟨d, by simp [pushSeq, sumdur]⟩
    | cons f fs =>
      exfalso
      have hp : f.bytes = (d.input.getD []).take f.bytes.length := by
        rw [heq, framesBytes_cons, List.take_left]
      simp only [consumeGreedy, if_pos hp] at hstall
      exact absurd (congrArg Greedy.nframes hstall) (by simp)
  | cons c cs ih =>
    intro rest d hrec heq hstall
    have heq' : (d.input.getD [] ++ c) ++ cs.flatten = framesBytes rest := by
      rw [List.append_assoc]
      rw [List.flatten_cons] at heq
      exact heq
    have hb : (d.input.getD [] ++ c) <+: framesBytes rest := ⟨cs.flatten, heq'⟩
    obtain ⟨h1, h2, h3⟩ := push_greedy P rest d c hrec hb
    have hch := consumeGreedy_chain rest (d.input.getD [] ++ c) cs.flatten heq'
    have hst := consumeGreedy_max rest (d.input.getD [] ++ c)
    have hrec' : RecognizesFrom P
        (rest.drop (consumeGreedy rest (d.input.getD [] ++ c)).nframes) :=
      recognizesFrom_mono P rest _ (fun f hf => List.drop_subset _ _ hf) hrec
    obtain ⟨dfin, hfin⟩ := ih
      (rest.drop (consumeGreedy rest (d.input.getD [] ++ c)).nframes)
      (d.push P c).2 hrec' (by rw [h3]; exact hch) (by rw [h3]; exact hst)
    refine ⟨dfin, ?_⟩
    have hp : d.push P c =
        (.ok (consumeGreedy rest (d.input.getD [] ++ c)).dur, (d.push P c).2) :=
      Prod.ext h1 rfl
    simp only [pushSeq]
    rw [hp]
    dsimp only
    rw [hfin]
    dsimp only
    rw [consumeGreedy_dur_chain rest (d.input.getD [] ++ c)]


/-- C7: for a parser that recognizes a list of complete well-formed frames
(each frame self-delimiting; proper prefixes stall) and any partition of the
frames' byte stream into chunks, pushing the chunks one call at a time
succeeds with per-call sample counts summing to exactly the count returned
by pushing the whole stream in a single call: decoding is invariant under
chunk boundaries. -/
theorem C7_chunk_boundary_invariance (P : FrameParser) (fs : List Frame)
    (chunks : List (List Byte)) (d : Decoder) (hrec : RecognizesFrom P fs)
    (hchunks : chunks.flatten = framesBytes fs) (hd : d.input = none) :
    ∃ n d1 d2, pushSeq d P chunks = .ok (n, d1) ∧
      d.push P (framesBytes fs) = (.ok n, d2) := by
  have hgd : d.input.getD [] = [] := by rw [hd]; rfl
  have hne : ∀ f ∈ fs, f.bytes ≠ [] := fun f hf => (hrec.1 f hf).1
  obtain ⟨dfin, hfin⟩ := pushSeq_greedy P chunks fs d hrec
    (by rw [hgd, List.nil_append]; exact hchunks)
    (by rw [hgd]; exact consumeGreedy_nil_byte fs hne)
  obtain ⟨h1, -, -⟩ := push_greedy P fs d (framesBytes fs) hrec
    (by rw [hgd, List.nil_append])
  refine ⟨sumdur fs, dfin, (d.push P (framesBytes fs)).2, hfin, ?_⟩
  refine Prod.ext ?_ rfl
  rw [h1, hgd, List.nil_append, consumeGreedy_full_dur]

lemma demoParser_recognizes : RecognizesFrom demoParser demoFrames := by
  constructor
  · intro f hf
    simp only [demoFrames, List.mem_cons, List.not_mem_nil, or_false] at hf
    rcases hf with hf | hf
    · subst hf
      refine ⟨by simp [f1], fun t => rfl, ?_⟩
      intro u hu hne
      rcases u with _ | ⟨a, u'⟩
      · rfl
      · rw [f1, List.cons_prefix_cons] at hu
        obtain ⟨ha, hu'⟩ := hu
        subst ha
        rcases u' with _ | ⟨b, u''⟩
        · rfl
        · rw [List.cons_prefix_cons] at hu'
          obtain ⟨hb, hu''⟩ := hu'
          subst hb
          obtain rfl := List.prefix_nil.mp hu''
          exact absurd rfl hne
    · subst hf
      refine ⟨by simp [f2], fun t => rfl, ?_⟩
      intro u hu hne
      rcases u with _ | ⟨a, u'⟩
      · rfl
      · rw [f2, List.cons_prefix_cons] at hu
        obtain ⟨ha, hu'⟩ := hu
        subst ha
        rcases u' with _ | ⟨b, u''⟩
        · rfl
        · rw [List.cons_prefix_cons] at hu'
          obtain ⟨hb, hu''⟩ := hu'
          subst hb
          obtain rfl := List.prefix_nil.mp hu''
          exact absurd rfl hne
  · rfl

/-- C7, witness: two concrete two-byte frames split across three chunks,
one of which ends mid-frame. -/
theorem C7_chunk_boundary_invariance_witness :
    RecognizesFrom demoParser demoFrames ∧
    (∃ n d1 d2, pushSeq dW demoParser [[255], [1, 255], [2]] = .ok (n, d1) ∧
      dW.push demoParser (framesBytes demoFrames) = (.ok n, d2)) :=
  ⟨demoParser_recognizes,
   C7_chunk_boundary_invariance demoParser demoFrames [[255], [1, 255], [2]] dW
     demoParser_recognizes rfl rfl⟩

/-- C4: the pairs `push` appends to the OutputQueue are exactly the raw
sign-extended stereo samples of the decoded frames, each channel normalized
by the single scheme `normalize (32 - bit_depth)`: shift left by
`32 - bit_depth`, reinterpret as unsigned and add `2^31` mod `2^32`, divide
by `2^31` and subtract 1 (floats idealized as exact rationals); and for
every bit depth the raw sample 0 normalizes to exactly 0. -/
theorem C4_push_enqueues_normalized (P : FrameParser) (fs : List Frame) (d : Decoder)
    (data : List Byte) (hrec : RecognizesFrom P fs)
    (hb : (d.input.getD [] ++ data) <+: framesBytes fs) :
    (d.push P data).2.output = d.output ++
      ((consumeGreedy fs (d.input.getD [] ++ data)).samples).map
        (normPair (32 - d.bit_depth)) ∧
    (∀ depth : Nat, normalize (32 - depth) 0 = 0) :=
  ⟨(push_greedy P fs d data hrec hb).2.1, fun depth => by
    norm_num [normalize]⟩

/-- C4, witness: pushing one concrete frame through the demo parser. -/
theorem C4_push_enqueues_normalized_witness :
    (dW.push demoParser [255, 1]).2.output = dW.output ++
      ((consumeGreedy demoFrames (dW.input.getD [] ++ [255, 1])).samples).map
        (normPair (32 - dW.bit_depth)) ∧
    (∀ depth : Nat, normalize (32 - depth) 0 = 0) :=
  C4_push_enqueues_normalized demoParser demoFrames dW [255, 1] demoParser_recognizes
    ⟨[255, 2], rfl⟩

end FlacDecoder
